import Mathlib

/-!
Verification of the recipe satisfiability engine (`src/expert_system.py`).

The Python program builds an experta `KnowledgeEngine` whose only
computational rule, `can_prepare_recipe`, has an empty left-hand side.
In experta a rule with an empty LHS matches the `InitialFact` declared by
`reset()` and therefore fires exactly once per query; declaring
`SuggestedRecipe` facts inside its body does not re-activate it (no rule
pattern mentions them).  Consequently the engine performs a single pass
over the catalog in catalog order, with `self.possible_recipes` growing
during the pass, and the user-supplied facts (ingredients, already-made
recipes, optional category and time) are all declared before `run()` and
snapshotted at the start of that single firing.

The definitions below are a direct shallow embedding of that behaviour:
Python dicts become insertion-ordered association lists with in-place
overwrite, Python truthiness (`if time:`, `if category:`,
`if available_time and ...`) is modelled explicitly (`0` and `""` are
falsy), and missing-item collections are lists built by `append`, exactly
as in the source.
-/

/-- One catalog entry, as decoded from `rules.json`: a `name` plus the
optional keys of its `conditions` dict.  `none` models an absent key. -/
structure Recipe where
  name : String
  ingredients : Option (List String)
  recipes : Option (List String)
  time : Option Int
  category : Option String
deriving DecidableEq, Repr

/-- The facts visible to the single firing of `can_prepare_recipe`:
the snapshot of `Ingredient` facts, `SuggestedRecipe` facts declared by
the caller, and the optional `available` / `category` facts. -/
structure EngineFacts where
  availableIngredients : List String
  preparedRecipes : List String
  availableTime : Option Int
  desiredCategory : Option String
deriving DecidableEq, Repr

/-- Mutable state of the engine body: `possible_recipes` (a list, appended
to at the end) and `nearly_possible_recipes` (an insertion-ordered dict
from recipe name to the pair of missing-ingredient and missing-sub-recipe
lists). -/
structure EngineState where
  possible : List String
  nearly : List (String × (List String × List String))
deriving DecidableEq, Repr

/-- Python dict assignment `d[k] = v`: overwrite in place if the key is
present, else append at the end (insertion order preserved). -/
def dictInsert (m : List (String × (List String × List String))) (k : String)
    (v : List String × List String) : List (String × (List String × List String)) :=
  if m.any (fun p => p.1 = k) then
    m.map (fun p => if p.1 = k then (k, v) else p)
  else
    m ++ [(k, v)]

/-- Step 1 of `can_prepare_recipe`: the ingredients of the recipe that are
not in `available_ingredients`, appended in catalog order (duplicates in
the condition list are kept).  An absent `ingredients` key yields `[]`. -/
def missingIngredients (conds : Option (List String)) (avail : List String) : List String :=
  match conds with
  | none => []
  | some l => l.filter (fun i => !(avail.contains i))

/-- Step 2 of `can_prepare_recipe`: the required sub-recipes that are in
neither `self.possible_recipes` nor the `prepared_recipes` snapshot. -/
def missingSubRecipes (conds : Option (List String)) (possible prepared : List String) :
    List String :=
  match conds with
  | none => []
  | some l => l.filter (fun s => !(possible.contains s) && !(prepared.contains s))

/-- Step 3 of `can_prepare_recipe`:
`if available_time and 'time' in conditions: if conditions['time'] > available_time`.
Python truthiness makes a declared budget of `0` skip the check. -/
def timeOk (availableTime : Option Int) (rtime : Option Int) : Bool :=
  match availableTime, rtime with
  | some a, some t => if a = 0 then true else decide (t ≤ a)
  | _, _ => true

/-- Step 4 of `can_prepare_recipe`:
`if desired_category and 'category' in conditions: if conditions['category'] != desired_category`.
Python truthiness makes a declared category of `""` skip the check. -/
def categoryOk (desired : Option String) (rcat : Option String) : Bool :=
  match desired, rcat with
  | some d, some c => if d = "" then true else decide (c = d)
  | _, _ => true

/-- The body of the per-recipe loop of `can_prepare_recipe`: skip recipes
already in `possible_recipes`; otherwise evaluate the four checks, append
the name to `possible_recipes` when all hold, and otherwise record the
missing lists in `nearly_possible_recipes` when at least one is
non-empty. -/
def processRecipe (f : EngineFacts) (st : EngineState) (r : Recipe) : EngineState :=
  if st.possible.contains r.name then st
  else
    let mi := missingIngredients r.ingredients f.availableIngredients
    let mr := missingSubRecipes r.recipes st.possible f.preparedRecipes
    let isMet := mi.isEmpty && mr.isEmpty &&
      timeOk f.availableTime r.time && categoryOk f.desiredCategory r.category
    if isMet then
      if st.possible.contains r.name then st
      else { st with possible := st.possible ++ [r.name] }
    else if !mi.isEmpty || !mr.isEmpty then
      { st with nearly := dictInsert st.nearly r.name (mi, mr) }
    else st

/-- The single firing of `can_prepare_recipe`: one pass over the catalog
in catalog order, starting from empty `possible_recipes` and
`nearly_possible_recipes`. -/
def engineRun (rules : List Recipe) (f : EngineFacts) : EngineState :=
  rules.foldl (processRecipe f) ⟨[], []⟩

/-- The facts declared by `find_recipes` before `engine.run()`:
`if made_recipes:`, `if category:` and `if time:` use Python truthiness,
so `None`/`[]`, `""` and `0` declare nothing. -/
def engineFacts (ingredients : List String) (madeRecipes : Option (List String))
    (category : Option String) (time : Option Int) : EngineFacts :=
  { availableIngredients := ingredients
    preparedRecipes := madeRecipes.getD []
    availableTime :=
      match time with
      | none => none
      | some t => if t = 0 then none else some t
    desiredCategory :=
      match category with
      | none => none
      | some c => if c = "" then none else some c }

/-- The post-loop filter of `find_recipes` over
`engine.nearly_possible_recipes`: keep entries whose name is in neither
`possible_recipes` nor `initial_recipes` and whose missing-ingredient
count is between 1 and 2, and render the explanation string. -/
def nearlyFilter (st : EngineState) (initial : List String) : List (String × String) :=
  st.nearly.filterMap (fun p =>
    if !(st.possible.contains p.1) && !(initial.contains p.1) then
      if 1 ≤ p.2.1.length && p.2.1.length ≤ 2 then
        let parts :=
          (if p.2.1.isEmpty then [] else
            ["you are missing: " ++ String.intercalate ", " p.2.1]) ++
          (if p.2.2.isEmpty then [] else
            ["you need to prepare: " ++ String.intercalate ", " p.2.2])
        if parts.isEmpty then none
        else some (p.1, String.intercalate " and " parts)
      else none
    else none)

/-- The record returned by `find_recipes`. -/
structure FindResult where
  newRecipes : List String
  nearlyPossible : List (String × String)
deriving DecidableEq, Repr

/-- `find_recipes(ingredients, made_recipes, category, time)` on an
already-loaded catalog: declare the facts, run the engine once, drop the
initially-made recipes from `possible_recipes`, filter and render the
near-misses, and truncate them to the first 4 entries. -/
def find_recipes (rules : List Recipe) (ingredients : List String)
    (madeRecipes : Option (List String)) (category : Option String) (time : Option Int) :
    FindResult :=
  let st := engineRun rules (engineFacts ingredients madeRecipes category time)
  let initial := madeRecipes.getD []
  let newRecipes := st.possible.filter (fun r => !(initial.contains r))
  let filtered := nearlyFilter st initial
  let filtered := if filtered.length > 4 then filtered.take 4 else filtered
  ⟨newRecipes, filtered⟩

/-- A raw catalog entry before the engine reads it: `rule['name']` may be
absent (the JSON object need not contain the key). -/
structure RawRecipe where
  name : Option String
  ingredients : Option (List String)
  recipes : Option (List String)
  time : Option Int
  category : Option String
deriving DecidableEq, Repr

/-- `RecipeEngine.load_rules`: `json.load` on the decoded catalog — it
returns the data unchanged and performs no structural validation
whatsoever (file I/O and JSON decoding themselves are outside the model). -/
def loadRules (raw : List RawRecipe) : Except String (List RawRecipe) :=
  Except.ok raw

/-- The engine's single pass over a raw catalog: each iteration of the
loop in `can_prepare_recipe` begins with `recipe['name']`, which raises a
`KeyError` when the entry lacks a `name`; the error aborts the run. -/
def engineRunRaw (f : EngineFacts) : EngineState → List RawRecipe → Except String EngineState
  | st, [] => Except.ok st
  | st, r :: rs =>
    match r.name with
    | none => Except.error "KeyError: name"
    | some nm =>
      engineRunRaw f (processRecipe f st ⟨nm, r.ingredients, r.recipes, r.time, r.category⟩) rs

/-- A recipe `A` that requires sub-recipe `B` and nothing else. -/
def recipeA : Recipe := ⟨"A", none, some ["B"], none, none⟩

/-- A recipe `B` with no conditions at all. -/
def recipeB : Recipe := ⟨"B", none, none, none, none⟩

/-- A recipe whose `ingredients` condition lists the same ingredient three
times. -/
def recipeDup : Recipe := ⟨"Dup", some ["x", "x", "x"], none, none, none⟩

/-- A raw catalog entry that lacks the `name` key. -/
def rawNoName : RawRecipe := ⟨none, none, none, none, none⟩

/-! ## Helper lemmas -/

/-- `possible_recipes` never shrinks across one loop iteration. -/
theorem mem_possible_processRecipe (f : EngineFacts) (st : EngineState) (r : Recipe)
    {n : String} (h : n ∈ st.possible) : n ∈ (processRecipe f st r).possible := by
  simp only [processRecipe]
  split
  · exact h
  · split
    · exact List.mem_append_left _ h
    · split
      · exact h
      · exact h

/-- `possible_recipes` never shrinks across the pass. -/
theorem mem_possible_foldl (f : EngineFacts) (rs : List Recipe) (st : EngineState)
    {n : String} (h : n ∈ st.possible) :
    n ∈ (rs.foldl (processRecipe f) st).possible := by
  induction rs generalizing st with
  | nil => exact h
  | cons r rs ih => exact ih _ (mem_possible_processRecipe f st r h)

/-- A recipe whose four checks all hold at the state it is evaluated in is in
`possible_recipes` immediately after its loop iteration. -/
theorem processRecipe_settles (f : EngineFacts) (st : EngineState) (r : Recipe)
    (hmi : missingIngredients r.ingredients f.availableIngredients = [])
    (hmr : missingSubRecipes r.recipes st.possible f.preparedRecipes = [])
    (ht : timeOk f.availableTime r.time = true)
    (hc : categoryOk f.desiredCategory r.category = true) :
    r.name ∈ (processRecipe f st r).possible := by
  simp only [processRecipe, hmi, hmr, ht, hc, List.isEmpty_nil, Bool.and_self, Bool.and_true,
    Bool.true_and, if_true]
  split
  · next hin => simpa using hin
  · exact List.mem_append_right _ (List.mem_singleton.mpr rfl)

/-- Every entry of `dictInsert m k v` is an old entry or the inserted pair. -/
theorem mem_dictInsert (m : List (String × (List String × List String))) (k : String)
    (v : List String × List String) {p : String × (List String × List String)}
    (h : p ∈ dictInsert m k v) : p ∈ m ∨ p = (k, v) := by
  simp only [dictInsert] at h
  split at h
  · rcases List.mem_map.mp h with ⟨q, hq, hpq⟩
    by_cases hk : q.1 = k
    · right
      rw [if_pos hk] at hpq
      exact hpq.symm
    · left
      rw [if_neg hk] at hpq
      exact hpq ▸ hq
  · rcases List.mem_append.mp h with h' | h'
    · exact Or.inl h'
    · exact Or.inr (List.mem_singleton.mp h')

/-- Every entry of `nearly_possible_recipes` after one loop iteration is an old
entry, or carries the just-evaluated recipe's name and missing-ingredient
list. -/
theorem mem_nearly_processRecipe (f : EngineFacts) (st : EngineState) (r : Recipe)
    {p : String × (List String × List String)}
    (h : p ∈ (processRecipe f st r).nearly) :
    p ∈ st.nearly ∨
      (p.1 = r.name ∧ p.2.1 = missingIngredients r.ingredients f.availableIngredients) := by
  simp only [processRecipe] at h
  split at h
  · exact Or.inl h
  · split at h
    · exact Or.inl h
    · split at h
      · rcases mem_dictInsert _ _ _ h with h' | h'
        · exact Or.inl h'
        · exact Or.inr (by simp [h'])
      · exact Or.inl h

/-- Every rendered near-miss entry comes from a recorded entry whose name is
outside `possible_recipes` and `initial_recipes` and whose missing-ingredient
count is between 1 and 2. -/
theorem mem_nearlyFilter (st : EngineState) (initial : List String)
    {p : String × String} (h : p ∈ nearlyFilter st initial) :
    ∃ mi mr, (p.1, (mi, mr)) ∈ st.nearly ∧ p.1 ∉ st.possible ∧ p.1 ∉ initial ∧
      1 ≤ mi.length ∧ mi.length ≤ 2 := by
  simp only [nearlyFilter] at h
  rcases List.mem_filterMap.mp h with ⟨q, hq, hfq⟩
  by_cases hcond : (!(st.possible.contains q.1) && !(initial.contains q.1)) = true
  case neg =>
    rw [if_neg hcond] at hfq
    exact Option.noConfusion hfq
  rw [if_pos hcond] at hfq
  by_cases hlen : (decide (1 ≤ q.2.1.length) && decide (q.2.1.length ≤ 2)) = true
  case neg =>
    rw [if_neg hlen] at hfq
    exact Option.noConfusion hfq
  rw [if_pos hlen] at hfq
  have hlen' : 1 ≤ q.2.1.length ∧ q.2.1.length ≤ 2 := by simpa using hlen
  have hne : q.2.1.isEmpty = false := by
    cases hq1 : q.2.1 with
    | nil => rw [hq1] at hlen'; simp at hlen'
    | cons a l => simp
  simp only [hne] at hfq
  simp only [Bool.false_eq_true, if_false, List.singleton_append, List.isEmpty_cons] at hfq
  injection hfq with h2
  subst h2
  have hcond' : q.1 ∉ st.possible ∧ q.1 ∉ initial := by simpa using hcond
  exact ⟨q.2.1, q.2.2, hq, hcond'.1, hcond'.2, hlen'.1, hlen'.2⟩

/-- If every catalog entry carrying a given name has no missing ingredients,
then every entry recorded for that name during the pass has an empty
missing-ingredient list. -/
theorem nearly_fst_empty_foldl (f : EngineFacts) (n : String) (rs : List Recipe)
    (st : EngineState)
    (hrules : ∀ r ∈ rs, r.name = n →
      missingIngredients r.ingredients f.availableIngredients = [])
    (hst : ∀ mi mr, (n, (mi, mr)) ∈ st.nearly → mi = []) :
    ∀ mi mr, (n, (mi, mr)) ∈ (rs.foldl (processRecipe f) st).nearly → mi = [] := by
  induction rs generalizing st with
  | nil => exact hst
  | cons r rs ih =>
    refine ih _ (fun r' hr' => hrules r' (List.mem_cons_of_mem _ hr')) ?_
    intro mi mr hmem
    rcases mem_nearly_processRecipe f st r hmem with h' | h'
    · exact hst mi mr h'
    · exact h'.2.trans (hrules r (List.mem_cons_self r rs) h'.1.symm)

/-- A raw catalog containing an entry without a `name` makes the engine's
single pass abort with an error. -/
theorem engineRunRaw_error_of_missing_name (f : EngineFacts) (raw : List RawRecipe)
    (st : EngineState) (h : ∃ r ∈ raw, r.name = none) :
    ∃ e, engineRunRaw f st raw = Except.error e := by
  induction raw generalizing st with
  | nil => simp at h
  | cons r rs ih =>
    cases hr0 : r.name with
    | none => exact ⟨"KeyError: name", by simp [engineRunRaw, hr0]⟩
    | some nm =>
      have h' : ∃ r' ∈ rs, r'.name = none := by
        rcases h with ⟨r', hr', hname⟩
        rcases List.mem_cons.mp hr' with rfl | hmem
        · rw [hr0] at hname; cases hname
        · exact ⟨r', hmem, hname⟩
      rcases ih (processRecipe f st ⟨nm, r.ingredients, r.recipes, r.time, r.category⟩) h'
        with ⟨e, he⟩
      exact ⟨e, by simp [engineRunRaw, hr0, he]⟩

/-! ## Claims -/

/-- C3: for every catalog and facts, every recipe name contained in
`alreadyPrepared` (the `made_recipes` argument) is absent from the returned
`new_recipes` sequence, even when that recipe's own conditions are
independently satisfiable and the pass re-derives it. -/
theorem c3_already_prepared_never_new (rules : List Recipe) (ings : List String)
    (made : Option (List String)) (cat : Option String) (tm : Option Int) (n : String)
    (h : n ∈ made.getD []) :
    n ∉ (find_recipes rules ings made cat tm).newRecipes := by
  intro hmem
  simp only [find_recipes] at hmem
  have h2 := (List.mem_filter.mp hmem).2
  simp [h] at h2

/-- Witness for C3: an already-made recipe whose conditions hold is still
not reported as new. -/
theorem c3_witness :
    "Dough" ∈ ((some ["Dough"] : Option (List String)).getD []) ∧
    "Dough" ∉ (find_recipes [⟨"Dough", none, none, none, none⟩] []
      (some ["Dough"]) none none).newRecipes :=
  ⟨by decide, c3_already_prepared_never_new _ _ _ _ _ _ (by decide)⟩

/-- C8: `find_recipes` is deterministic and referentially transparent: two
calls with equal catalog and equal facts yield identical results (each call
builds a fresh engine, so the embedding is a pure function). -/
theorem c8_idempotent_query (rules₁ rules₂ : List Recipe) (ings₁ ings₂ : List String)
    (made₁ made₂ : Option (List String)) (cat₁ cat₂ : Option String) (tm₁ tm₂ : Option Int)
    (hr : rules₁ = rules₂) (hi : ings₁ = ings₂) (hm : made₁ = made₂) (hc : cat₁ = cat₂)
    (ht : tm₁ = tm₂) :
    find_recipes rules₁ ings₁ made₁ cat₁ tm₁ = find_recipes rules₂ ings₂ made₂ cat₂ tm₂ := by
  subst hr; subst hi; subst hm; subst hc; subst ht; rfl

/-- Witness for C8 at a concrete query. -/
theorem c8_witness :
    find_recipes [recipeB] ["egg"] none none none =
      find_recipes [recipeB] ["egg"] none none none :=
  c8_idempotent_query _ _ _ _ _ _ _ _ _ _ rfl rfl rfl rfl rfl

/-- C9: at the `find_recipes` entry point a time argument of `0` and an
empty-string category argument are treated exactly like an absent filter:
the corresponding fact is never declared and the whole result coincides with
the unfiltered query. -/
theorem c9_falsy_filters_ignored (rules : List Recipe) (ings : List String)
    (made : Option (List String)) :
    (engineFacts ings made (some "") (some 0)).desiredCategory = none ∧
    (engineFacts ings made (some "") (some 0)).availableTime = none ∧
    find_recipes rules ings made (some "") (some 0) =
      find_recipes rules ings made none none :=
  ⟨rfl, rfl, rfl⟩

/-- C10: a name in the final `possible_recipes` set (hence any name in
`new_recipes`) never appears as a key of the returned `nearly_possible`
mapping. -/
theorem c10_new_and_nearly_disjoint (rules : List Recipe) (ings : List String)
    (made : Option (List String)) (cat : Option String) (tm : Option Int) (n : String)
    (h : n ∈ (engineRun rules (engineFacts ings made cat tm)).possible ∨
      n ∈ (find_recipes rules ings made cat tm).newRecipes) :
    ∀ p ∈ (find_recipes rules ings made cat tm).nearlyPossible, p.1 ≠ n := by
  have hposs : n ∈ (engineRun rules (engineFacts ings made cat tm)).possible := by
    rcases h with h | h
    · exact h
    · exact (List.mem_filter.mp h).1
  intro p hp hpn
  have hp' : p ∈ nearlyFilter (engineRun rules (engineFacts ings made cat tm))
      (made.getD []) := by
    simp only [find_recipes] at hp
    split at hp
    · exact List.take_subset _ _ hp
    · exact hp
  rcases mem_nearlyFilter _ _ hp' with ⟨mi, mr, _, hnp, _, _, _⟩
  exact hnp (hpn.symm ▸ hposs)

/-- Witness for C10: `B` is derived, so it is not a key of the near-miss
map. -/
theorem c10_witness :
    ("B" ∈ (engineRun [recipeA, recipeB] (engineFacts [] none none none)).possible ∨
      "B" ∈ (find_recipes [recipeA, recipeB] [] none none none).newRecipes) ∧
    ∀ p ∈ (find_recipes [recipeA, recipeB] [] none none none).nearlyPossible, p.1 ≠ "B" :=
  ⟨Or.inl (by decide),
    c10_new_and_nearly_disjoint _ _ _ _ _ _ (Or.inl (by decide))⟩

/-- C2: if every catalog entry with a given name has no missing ingredients
(in particular a recipe whose most recent evaluation had both missing sets
empty because it failed only the time or category check), that name never
appears in the `nearly_possible` map of the result. -/
theorem c2_time_category_only_not_near_miss (rules : List Recipe) (ings : List String)
    (made : Option (List String)) (cat : Option String) (tm : Option Int) (n : String)
    (hmi : ∀ r ∈ rules, r.name = n → missingIngredients r.ingredients ings = []) :
    ∀ p ∈ (find_recipes rules ings made cat tm).nearlyPossible, p.1 ≠ n := by
  intro p hp hpn
  have hp' : p ∈ nearlyFilter (engineRun rules (engineFacts ings made cat tm))
      (made.getD []) := by
    simp only [find_recipes] at hp
    split at hp
    · exact List.take_subset _ _ hp
    · exact hp
  rcases mem_nearlyFilter _ _ hp' with ⟨mi, mr, hmem, _, _, h1, _⟩
  have hempty : mi = [] := by
    refine nearly_fst_empty_foldl (engineFacts ings made cat tm) n rules ⟨[], []⟩ hmi ?_ mi mr ?_
    · intro mi' mr' hmem'
      simp at hmem'
    · rw [hpn] at hmem
      exact hmem
  rw [hempty] at h1
  simp at h1

/-- Witness for C2: a recipe failing only its time check is not a near
miss. -/
theorem c2_witness :
    (∀ r ∈ [(⟨"Slow", none, none, some 10, none⟩ : Recipe)], r.name = "Slow" →
      missingIngredients r.ingredients [] = []) ∧
    ∀ p ∈ (find_recipes [⟨"Slow", none, none, some 10, none⟩] [] none none
      (some 5)).nearlyPossible, p.1 ≠ "Slow" :=
  ⟨by decide, c2_time_category_only_not_near_miss _ _ _ _ _ _ (by decide)⟩

/-- C4: the returned `nearly_possible` mapping has at most 4 entries, and
every entry stems from a recorded near-miss whose missing-ingredient count
is 1 or 2 — entries missing 0 ingredients (even with missing sub-recipes)
or 3 or more ingredients are dropped entirely. -/
theorem c4_ranking_bound (rules : List Recipe) (ings : List String)
    (made : Option (List String)) (cat : Option String) (tm : Option Int) :
    (find_recipes rules ings made cat tm).nearlyPossible.length ≤ 4 ∧
    ∀ p ∈ (find_recipes rules ings made cat tm).nearlyPossible,
      ∃ mi mr,
        (p.1, (mi, mr)) ∈ (engineRun rules (engineFacts ings made cat tm)).nearly ∧
        1 ≤ mi.length ∧ mi.length ≤ 2 := by
  constructor
  · simp only [find_recipes]
    split
    · exact List.length_take_le _ _
    · next hlen => omega
  · intro p hp
    have hp' : p ∈ nearlyFilter (engineRun rules (engineFacts ings made cat tm))
        (made.getD []) := by
      simp only [find_recipes] at hp
      split at hp
      · exact List.take_subset _ _ hp
      · exact hp
    rcases mem_nearlyFilter _ _ hp' with ⟨mi, mr, hmem, _, _, h1, h2⟩
    exact ⟨mi, mr, hmem, h1, h2⟩

/-- Witness for C4 at a concrete query. -/
theorem c4_witness :
    (find_recipes [recipeDup] [] none none none).nearlyPossible.length ≤ 4 :=
  (c4_ranking_bound [recipeDup] [] none none none).1

/-- C1 counterexample: recipe `A` requires sub-recipe `B`, `B` ends the run
preparable, and `A`'s ingredient, time and category conditions all hold, yet
with `A` placed before `B` in the catalog `A` is not in `new_recipes`: the
engine's rule fires once, so preparability propagates only forward within
the single catalog-order pass. -/
theorem c1_counterexample :
    recipeA.recipes = some ["B"] ∧
    "B" ∈ (find_recipes [recipeA, recipeB] [] none none none).newRecipes ∧
    missingIngredients recipeA.ingredients [] = [] ∧
    timeOk (engineFacts [] none none none).availableTime recipeA.time = true ∧
    categoryOk (engineFacts [] none none none).desiredCategory recipeA.category = true ∧
    "A" ∉ (find_recipes [recipeA, recipeB] [] none none none).newRecipes := by
  decide

/-- C1 amended: if every required sub-recipe of `a` is either already in
`possible_recipes` after the catalog prefix preceding `a` (e.g. a sub-recipe
settled at an earlier catalog position) or among the already-made recipes,
and `a`'s ingredient, time and category conditions hold, then `a` is
reported in `new_recipes`. -/
theorem c1_amended (rules₁ rules₂ : List Recipe) (a : Recipe) (ings : List String)
    (made : Option (List String)) (cat : Option String) (tm : Option Int)
    (hing : ∀ i ∈ a.ingredients.getD [], i ∈ ings)
    (hsub : ∀ s ∈ a.recipes.getD [],
      s ∈ (engineRun rules₁ (engineFacts ings made cat tm)).possible ∨ s ∈ made.getD [])
    (ht : timeOk (engineFacts ings made cat tm).availableTime a.time = true)
    (hc : categoryOk (engineFacts ings made cat tm).desiredCategory a.category = true)
    (hnm : a.name ∉ made.getD []) :
    a.name ∈ (find_recipes (rules₁ ++ a :: rules₂) ings made cat tm).newRecipes := by
  have hmi : missingIngredients a.ingredients ings = [] := by
    cases hI : a.ingredients with
    | none => simp [missingIngredients]
    | some l =>
      simp only [missingIngredients]
      apply List.filter_eq_nil_iff.mpr
      intro i hi
      have : i ∈ ings := hing i (by simp [hI, hi])
      simp [this]
  have hmr : missingSubRecipes a.recipes
      (engineRun rules₁ (engineFacts ings made cat tm)).possible
      (engineFacts ings made cat tm).preparedRecipes = [] := by
    cases hR : a.recipes with
    | none => simp [missingSubRecipes]
    | some l =>
      simp only [missingSubRecipes]
      apply List.filter_eq_nil_iff.mpr
      intro s hs
      rcases hsub s (by simp [hR, hs]) with h' | h'
      · simp only [Bool.not_eq_true, Bool.and_eq_true]
        simp
        exact fun hcon => absurd h' hcon
      · simp only [Bool.not_eq_true, Bool.and_eq_true]
        simp
        exact fun _ => h'
  have hstep : a.name ∈ (processRecipe (engineFacts ings made cat tm)
      (engineRun rules₁ (engineFacts ings made cat tm)) a).possible :=
    processRecipe_settles _ _ _ hmi hmr ht hc
  have hfinal : a.name ∈ (engineRun (rules₁ ++ a :: rules₂)
      (engineFacts ings made cat tm)).possible := by
    simp only [engineRun, List.foldl_append, List.foldl_cons]
    exact mem_possible_foldl _ _ _ hstep
  simp only [find_recipes]
  refine List.mem_filter.mpr ⟨hfinal, ?_⟩
  simpa using hnm

/-- Witness for C1 amended: with `B` placed before `A` in the catalog, `A`
is reported. -/
theorem c1_witness :
    "A" ∈ (find_recipes ([recipeB] ++ recipeA :: []) [] none none none).newRecipes :=
  c1_amended [recipeB] [] recipeA [] none none none (by decide) (by decide)
    (by decide) (by decide) (by decide)

/-- C5 counterexample: a recipe listing the same unavailable ingredient
three times gets all three occurrences in its missing list — duplicates do
not collapse — so its count is 3, not 1, and the ranking filter drops it. -/
theorem c5_counterexample :
    recipeDup.ingredients = some ["x", "x", "x"] ∧
    missingIngredients recipeDup.ingredients [] = ["x", "x", "x"] ∧
    (missingIngredients recipeDup.ingredients []).length = 3 ∧
    (find_recipes [recipeDup] [] none none none).nearlyPossible = [] := by
  decide

/-- C5 amended: duplicate names in a recipe's ingredient conditions are kept
with multiplicity: an ingredient listed `k` times and unavailable
contributes `k` to the missing-ingredient count, so the recipe survives the
ranking filter exactly when `k ≤ 2` (for `k ≥ 1`). -/
theorem c5_amended (nm x : String) (k : Nat) (hk : 1 ≤ k) :
    missingIngredients (some (List.replicate k x)) [] = List.replicate k x ∧
    ((find_recipes [⟨nm, some (List.replicate k x), none, none, none⟩] [] none none
      none).nearlyPossible ≠ [] ↔ k ≤ 2) := by
  have hmi : missingIngredients (some (List.replicate k x)) [] = List.replicate k x := by
    simp [missingIngredients]
  refine ⟨hmi, ?_⟩
  have hk0 : ¬ k = 0 := by omega
  have hne : (List.replicate k x).isEmpty = false := by
    cases k with
    | zero => omega
    | succ n => simp
  have hst : engineRun [⟨nm, some (List.replicate k x), none, none, none⟩]
      (engineFacts [] none none none) =
      ⟨[], [(nm, (List.replicate k x, []))]⟩ := by
    simp [engineRun, engineFacts, processRecipe, missingIngredients, missingSubRecipes,
      dictInsert, hne, hk0]
  by_cases hk2 : k ≤ 2
  · simp [find_recipes, hst, nearlyFilter, hne, hk, hk0, hk2]
  · simp [find_recipes, hst, nearlyFilter, hne, hk, hk0, hk2]

/-- Witness for C5 amended at `k = 3`. -/
theorem c5_witness :
    1 ≤ 3 ∧
    (missingIngredients (some (List.replicate 3 "x")) [] = List.replicate 3 "x" ∧
      ((find_recipes [⟨"Dup", some (List.replicate 3 "x"), none, none, none⟩] [] none
        none none).nearlyPossible ≠ [] ↔ 3 ≤ 2)) :=
  ⟨by decide, c5_amended "Dup" "x" 3 (by decide)⟩

/-- C6 counterexample: loading a catalog whose entry lacks a `name` succeeds
— there is no MalformedCatalog error at catalog-load time; the failure only
surfaces as a KeyError when the engine's pass runs, i.e. during solving. -/
theorem c6_counterexample :
    rawNoName.name = none ∧
    loadRules [rawNoName] = Except.ok [rawNoName] ∧
    engineRunRaw (engineFacts [] none none none) ⟨[], []⟩ [rawNoName] =
      Except.error "KeyError: name" :=
  ⟨rfl, rfl, rfl⟩

/-- C6 amended: `load_rules` performs no structural validation — it returns
the decoded catalog unchanged — and a catalog containing an entry without a
`name` makes the engine's pass (not the load) abort with a KeyError. -/
theorem c6_amended (raw : List RawRecipe) (f : EngineFacts) (st : EngineState)
    (h : ∃ r ∈ raw, r.name = none) :
    loadRules raw = Except.ok raw ∧ ∃ e, engineRunRaw f st raw = Except.error e :=
  ⟨rfl, engineRunRaw_error_of_missing_name f raw st h⟩

/-- Witness for C6 amended at a concrete raw catalog. -/
theorem c6_witness :
    loadRules [rawNoName] = Except.ok [rawNoName] ∧
    ∃ e, engineRunRaw (engineFacts [] none none none) ⟨[], []⟩ [rawNoName] =
      Except.error e :=
  c6_amended [rawNoName] (engineFacts [] none none none) ⟨[], []⟩
    ⟨rawNoName, List.mem_singleton.mpr rfl, rfl⟩

/-- C7 counterexample: with a declared time budget of 0 and a recipe time of
5, the code's time check is satisfied even though the claimed condition
(budget absent, or recipe time absent, or recipe time ≤ budget) fails —
Python truthiness skips the check for a zero budget. -/
theorem c7_counterexample :
    timeOk (some 0) (some 5) = true ∧
    ¬((some (0 : Int)) = none ∨ ((some (5 : Int) : Option Int)) = none ∨ (5 : Int) ≤ 0) := by
  decide

/-- C7 amended: the time check is satisfied iff the declared budget is
absent or equal to 0, or the recipe's time is absent, or the recipe's time
is at most the budget. -/
theorem c7_amended (b mt : Option Int) :
    timeOk b mt = true ↔
      (b = none ∨ b = some 0 ∨ mt = none ∨
        ∃ bv tv, b = some bv ∧ mt = some tv ∧ tv ≤ bv) := by
  cases b with
  | none => simp [timeOk]
  | some a =>
    cases mt with
    | none => simp [timeOk]
    | some t =>
      by_cases ha : a = 0
      · subst ha
        simp [timeOk]
      · simp [timeOk, ha]

/-- Witness for C7 amended at a concrete budget and recipe time. -/
theorem c7_witness :
    timeOk (some 10) (some 5) = true ↔
      ((some (10 : Int)) = none ∨ (some (10 : Int)) = some 0 ∨
        ((some (5 : Int) : Option Int)) = none ∨
        ∃ bv tv, (some (10 : Int)) = some bv ∧
          ((some (5 : Int) : Option Int)) = some tv ∧ tv ≤ bv) :=
  c7_amended (some 10) (some 5)
